import Mathlib

/-!
Shallow embedding of `src/cargo/util/graph.rs`: a generic directed graph
stored as a map from node to the set of its successors, with incremental
edge insertion (`add`, `link`), adjacency lookup (`edges`), a DFS-based
linearization (`sort`) and a backward heuristic walk (`path_to_top`).

`HashMap` and `HashSet` are modelled as association lists and duplicate-free
lists kept in insertion order; the (unspecified) iteration order of the hash
containers is represented by the list order.  A panic of the Rust code is
modelled as `Except.error "panic"`.
-/

namespace CargoGraph

variable {N : Type} [DecidableEq N]

/-- Association-list lookup: the value of the first entry with the given key
(models `HashMap::get`). -/
def lookupA {α : Type} (l : List (N × α)) (n : N) : Option α :=
  match l with
  | [] => none
  | (k, v) :: rest => if k = n then some v else lookupA rest n

/-- Map-entry update: replace the value of an existing key in place, or append
a fresh entry at the end (models `HashMap::entry(..).or_insert_with(..)`
followed by a mutation of the stored value). -/
def upsert {α : Type} (l : List (N × α)) (n : N) (f : Option α → α) : List (N × α) :=
  match l with
  | [] => [(n, f none)]
  | (k, v) :: rest => if k = n then (k, f (some v)) :: rest else (k, v) :: upsert rest n f

/-- Set insertion (models `HashSet::insert`): a no-op when the element is
already present. -/
def insertSet (s : List N) (x : N) : List N := if x ∈ s then s else s ++ [x]

/-- Set extension (models `HashSet::extend`): insert the elements one by one. -/
def extendSet (s : List N) (xs : List N) : List N := xs.foldl insertSet s

/-- The graph: `nodes: HashMap<N, HashSet<N>>` from `graph.rs`. -/
structure Graph (α : Type) where
  nodes : List (α × List α)

/-- `Graph::new()`. -/
def Graph.empty : Graph N := ⟨[]⟩

/-- `Graph::add`: ensure `node` has an entry and extend its successor set by
`children`. -/
def Graph.add (g : Graph N) (node : N) (children : List N) : Graph N :=
  ⟨upsert g.nodes node (fun s => extendSet (s.getD []) children)⟩

/-- `Graph::link`: ensure `node` has an entry and insert the single `child`
into its successor set. -/
def Graph.link (g : Graph N) (node : N) (child : N) : Graph N :=
  ⟨upsert g.nodes node (fun s => insertSet (s.getD []) child)⟩

/-- `Graph::edges`: `self.nodes.get(node).map(|set| set.iter())`. -/
def Graph.edges (g : Graph N) (node : N) : Option (List N) :=
  lookupA g.nodes node

/-- The keys of the map, in iteration order (`self.nodes.keys()`). -/
def Graph.keys (g : Graph N) : List N := g.nodes.map Prod.fst

/-- `Graph::iter`: `self.nodes.keys()`. -/
def Graph.iter (g : Graph N) : List N := g.keys

/-- The traversal marks of `sort` (`enum Mark { InProgress, Done }`). -/
inductive Mark where
  | InProgress
  | Done
deriving DecidableEq

/-- Run an `Except`-valued step over a list of nodes in order, threading the
state and stopping at the first error (the shape shared by the
`for child in &self.nodes[node]` loop of `visit` and the top-level
`for node in self.nodes.keys()` loop of `sort`). -/
def runList {σ : Type} (f : N → σ → Except String σ) : List N → σ → Except String σ
  | [], st => Except.ok st
  | c :: rest, st =>
    match f c st with
    | Except.error e => Except.error e
    | Except.ok st2 => runList f rest st2

/-- `Graph::visit` (recursion depth is driven by `fuel`, which the totality
lemma below shows is never exhausted when `sort` supplies it): if `node` is
already marked, return; otherwise mark it `InProgress`, index the map
(`&self.nodes[node]`, a panic when `node` has no entry, modelled by
`Except.error "panic"`), recursively visit each child, then push `node` on
`dst` and mark it `Done`. -/
def visit (g : Graph N) : Nat → N → List N × List (N × Mark) →
    Except String (List N × List (N × Mark))
  | 0, _, _ => Except.error "fuel"
  | fuel + 1, node, st =>
    if (lookupA st.2 node).isSome then Except.ok st
    else
      let marks1 := upsert st.2 node (fun _ => Mark.InProgress)
      match lookupA g.nodes node with
      | none => Except.error "panic"
      | some children =>
        match runList (visit g fuel) children (st.1, marks1) with
        | Except.error e => Except.error e
        | Except.ok (dst2, marks2) =>
          Except.ok (dst2 ++ [node], upsert marks2 node (fun _ => Mark.Done))

/-- Visit a list of nodes in order, threading the `(dst, marks)` state. -/
def visitList (g : Graph N) (fuel : Nat) (cs : List N)
    (st : List N × List (N × Mark)) : Except String (List N × List (N × Mark)) :=
  runList (visit g fuel) cs st

/-- `Graph::sort`: visit every key in iteration order starting from an empty
result and empty mark table.  The Rust function returns
`Option<Vec<N>>` and always answers `Some(ret)` when it returns at all;
`Except.error "panic"` models the panic of `&self.nodes[node]` on a missing
key.  The fuel `g.nodes.length + 1` strictly exceeds the deepest possible
recursion (each nested call marks a previously unmarked key), so
`Except.error "fuel"` is unreachable. -/
def Graph.sort (g : Graph N) : Except String (List N) :=
  (visitList g (g.nodes.length + 1) g.keys ([], [])).map (fun st => st.1)

/-- The closure `first_pkg_depending_on` of `Graph::path_to_top`: the first
entry of the map, in iteration order, whose successor set contains `pkg` and
whose key is not already in `res`. -/
def first_pkg_depending_on (g : Graph N) (pkg : N) (res : List N) : Option N :=
  (((g.nodes.filter (fun p => decide (pkg ∈ p.2))).filter
      (fun p => decide (¬ p.1 ∈ res))).head?).map Prod.fst

/-- The `while let` loop of `Graph::path_to_top`, with explicit fuel: as long
as some not-yet-chosen key depends on the current last element, push it and
continue from it.  Each iteration pushes a key that is not yet in `result`, so
the fuel `g.nodes.length + 1` supplied by `path_to_top` is never exhausted
(the stop-condition theorems below depend on exactly this). -/
def pathLoop (g : Graph N) (fuel : Nat) (pkg : N) (result : List N) : List N :=
  match fuel with
  | 0 => result
  | fuel + 1 =>
    match first_pkg_depending_on g pkg result with
    | none => result
    | some p => pathLoop g fuel p (result ++ [p])

/-- `Graph::path_to_top`. -/
def Graph.path_to_top (g : Graph N) (pkg : N) : List N :=
  pathLoop g (g.nodes.length + 1) pkg [pkg]

/-- A single mutating call on the graph, for stating properties of whole call
sequences. -/
inductive Op (α : Type) where
  | add (node : α) (children : List α)
  | link (node : α) (child : α)
deriving DecidableEq

/-- The first argument of the call. -/
def Op.target : Op N → N
  | .add n _ => n
  | .link n _ => n

/-- The children inserted by the call. -/
def Op.childList : Op N → List N
  | .add _ cs => cs
  | .link _ c => [c]

/-- Apply one call to the graph. -/
def applyOp (g : Graph N) : Op N → Graph N
  | .add n cs => g.add n cs
  | .link n c => g.link n c

/-- Run a call sequence on the initially empty graph. -/
def buildGraph (ops : List (Op N)) : Graph N :=
  ops.foldl applyOp Graph.empty

/-- The successor set of a node, empty when the node has no entry. -/
def Graph.succs (g : Graph N) (n : N) : List N := (g.edges n).getD []

/-- An edge `u → v` is recorded exactly when `v` is a member of the successor
set stored for key `u`. -/
def Graph.HasEdge (g : Graph N) (u v : N) : Prop := v ∈ g.succs u

/-- No node is reachable from itself along one or more recorded edges. -/
def Graph.Acyclic (g : Graph N) : Prop :=
  ∀ n, ¬ Relation.TransGen g.HasEdge n n

/-- Every recorded successor is itself a key of the map. -/
def Graph.Closed (g : Graph N) : Prop :=
  ∀ p ∈ g.nodes, ∀ v ∈ p.2, v ∈ g.keys

/-- The equality test of `impl PartialEq for Graph` (`self.nodes.eq(&other.nodes)`,
`HashMap` equality): same keys, and for each key the stored `HashSet`s hold
the same elements. -/
def Graph.req (g1 g2 : Graph N) : Prop :=
  ∀ n, (g1.edges n).isSome = (g2.edges n).isSome ∧
    ∀ x, x ∈ g1.succs n ↔ x ∈ g2.succs n

/-- `impl Clone for Graph` clones the underlying map. -/
def Graph.clone (g : Graph N) : Graph N := ⟨g.nodes⟩

/-! ### Association-list and set lemmas -/

theorem lookupA_upsert_self {α : Type} (l : List (N × α)) (n : N) (f : Option α → α) :
    lookupA (upsert l n f) n = some (f (lookupA l n)) := by
  induction l with
  | nil => simp [lookupA, upsert]
  | cons p rest ih =>
    obtain ⟨k, v⟩ := p
    by_cases hk : k = n
    · subst hk
      simp [lookupA, upsert]
    · simp [lookupA, upsert, hk, ih]

theorem lookupA_upsert_ne {α : Type} (l : List (N × α)) (n : N) (f : Option α → α)
    (m : N) (h : m ≠ n) : lookupA (upsert l n f) m = lookupA l m := by
  have hnm : ¬ n = m := fun e => h e.symm
  induction l with
  | nil => simp [lookupA, upsert, hnm]
  | cons p rest ih =>
    obtain ⟨k, v⟩ := p
    by_cases hk : k = n
    · subst hk
      simp [lookupA, upsert, hnm]
    · simp [lookupA, upsert, hk, ih]

theorem lookupA_eq_none_iff {α : Type} (l : List (N × α)) (n : N) :
    lookupA l n = none ↔ ¬ n ∈ l.map Prod.fst := by
  induction l with
  | nil => simp [lookupA]
  | cons p rest ih =>
    obtain ⟨k, v⟩ := p
    by_cases hk : k = n
    · subst hk
      simp [lookupA]
    · have hnk : ¬ n = k := fun e => hk e.symm
      simp [lookupA, hk, ih, hnk]

theorem lookupA_isSome_iff {α : Type} (l : List (N × α)) (n : N) :
    (lookupA l n).isSome = true ↔ n ∈ l.map Prod.fst := by
  rw [Option.isSome_iff_ne_none, ne_eq, lookupA_eq_none_iff, not_not]

theorem mem_keys_upsert {α : Type} (l : List (N × α)) (n : N) (f : Option α → α) (m : N) :
    m ∈ (upsert l n f).map Prod.fst ↔ m ∈ l.map Prod.fst ∨ m = n := by
  induction l with
  | nil => simp [upsert]
  | cons p rest ih =>
    obtain ⟨k, v⟩ := p
    by_cases hk : k = n
    · subst hk
      simp [upsert]
      tauto
    · simp [upsert, hk, ih]
      tauto

theorem mem_insertSet (s : List N) (x y : N) :
    y ∈ insertSet s x ↔ y ∈ s ∨ y = x := by
  by_cases h : x ∈ s
  · rw [insertSet, if_pos h]
    constructor
    · exact Or.inl
    · rintro (hy | rfl)
      · exact hy
      · exact h
  · rw [insertSet, if_neg h]
    simp

theorem mem_extendSet (s : List N) (xs : List N) (y : N) :
    y ∈ extendSet s xs ↔ y ∈ s ∨ y ∈ xs := by
  induction xs generalizing s with
  | nil => simp [extendSet]
  | cons x rest ih =>
    show y ∈ extendSet (insertSet s x) rest ↔ _
    rw [ih, mem_insertSet]
    simp
    tauto

theorem nodup_insertSet (s : List N) (x : N) (h : s.Nodup) : (insertSet s x).Nodup := by
  by_cases hx : x ∈ s
  · simpa [insertSet, if_pos hx]
  · simp [insertSet, if_neg hx, List.nodup_append, h, hx]

theorem nodup_extendSet (s : List N) (xs : List N) (h : s.Nodup) :
    (extendSet s xs).Nodup := by
  induction xs generalizing s with
  | nil => simpa [extendSet]
  | cons x rest ih =>
    exact ih (insertSet s x) (nodup_insertSet s x h)

/-! ### Basic graph-operation lemmas -/

theorem edges_add_self (g : Graph N) (n : N) (cs : List N) :
    (g.add n cs).edges n = some (extendSet (g.succs n) cs) := by
  show lookupA (upsert g.nodes n _) n = _
  rw [lookupA_upsert_self]
  cases h : lookupA g.nodes n <;> simp [Graph.succs, Graph.edges, h]

theorem edges_add_ne (g : Graph N) (n : N) (cs : List N) (m : N) (h : m ≠ n) :
    (g.add n cs).edges m = g.edges m :=
  lookupA_upsert_ne g.nodes n _ m h

theorem edges_link_self (g : Graph N) (n c : N) :
    (g.link n c).edges n = some (insertSet (g.succs n) c) := by
  show lookupA (upsert g.nodes n _) n = _
  rw [lookupA_upsert_self]
  cases h : lookupA g.nodes n <;> simp [Graph.succs, Graph.edges, h]

theorem edges_link_ne (g : Graph N) (n c : N) (m : N) (h : m ≠ n) :
    (g.link n c).edges m = g.edges m :=
  lookupA_upsert_ne g.nodes n _ m h

theorem mem_keys_iff_isSome (g : Graph N) (n : N) :
    n ∈ g.keys ↔ (g.edges n).isSome = true :=
  (lookupA_isSome_iff g.nodes n).symm

theorem mem_keys_add (g : Graph N) (n : N) (cs : List N) (m : N) :
    m ∈ (g.add n cs).keys ↔ m ∈ g.keys ∨ m = n :=
  mem_keys_upsert g.nodes n _ m

theorem mem_keys_link (g : Graph N) (n c : N) (m : N) :
    m ∈ (g.link n c).keys ↔ m ∈ g.keys ∨ m = n :=
  mem_keys_upsert g.nodes n _ m

theorem mem_succs_add (g : Graph N) (n : N) (cs : List N) (m x : N) :
    x ∈ (g.add n cs).succs m ↔ x ∈ g.succs m ∨ (m = n ∧ x ∈ cs) := by
  by_cases hm : m = n
  · subst hm
    simp [Graph.succs, edges_add_self, mem_extendSet]
  · simp [Graph.succs, edges_add_ne g n cs m hm, hm]

theorem mem_succs_link (g : Graph N) (n c : N) (m x : N) :
    x ∈ (g.link n c).succs m ↔ x ∈ g.succs m ∨ (m = n ∧ x = c) := by
  by_cases hm : m = n
  · subst hm
    simp [Graph.succs, edges_link_self, mem_insertSet]
  · simp [Graph.succs, edges_link_ne g n c m hm, hm]

/-! ### Characterization of graphs built from call sequences -/

theorem mem_keys_foldl (ops : List (Op N)) (g : Graph N) (n : N) :
    n ∈ (ops.foldl applyOp g).keys ↔ n ∈ g.keys ∨ n ∈ ops.map Op.target := by
  induction ops generalizing g with
  | nil => simp
  | cons op rest ih =>
    rw [List.foldl_cons, ih]
    cases op with
    | add m cs => simp [applyOp, mem_keys_add, Op.target]; tauto
    | link m c => simp [applyOp, mem_keys_link, Op.target]; tauto

theorem mem_keys_buildGraph (ops : List (Op N)) (n : N) :
    n ∈ (buildGraph ops).keys ↔ n ∈ ops.map Op.target := by
  rw [buildGraph, mem_keys_foldl]
  simp [Graph.empty, Graph.keys]

theorem mem_succs_foldl (ops : List (Op N)) (g : Graph N) (n x : N) :
    x ∈ (ops.foldl applyOp g).succs n ↔
      x ∈ g.succs n ∨ ∃ op ∈ ops, Op.target op = n ∧ x ∈ Op.childList op := by
  induction ops generalizing g with
  | nil => simp
  | cons op rest ih =>
    rw [List.foldl_cons, ih]
    cases op with
    | add m cs =>
      simp [applyOp, mem_succs_add, Op.target, Op.childList]
      tauto
    | link m c =>
      simp [applyOp, mem_succs_link, Op.target, Op.childList]
      tauto

theorem mem_succs_buildGraph (ops : List (Op N)) (n x : N) :
    x ∈ (buildGraph ops).succs n ↔
      ∃ op ∈ ops, Op.target op = n ∧ x ∈ Op.childList op := by
  rw [buildGraph, mem_succs_foldl]
  simp [Graph.empty, Graph.succs, Graph.edges, lookupA]

/-! ### Claim C3 -/

/-- C3: for a graph built by any call sequence, `edges n` is `none` exactly
when `n` was never the first argument of an `add` or `link` call, and when `n`
was such an argument `edges n` is `some` stored set (possibly the empty
sequence), an observably different result from `none`. -/
theorem edges_none_iff_never_added (ops : List (Op N)) (n : N) :
    ((buildGraph ops).edges n = none ↔ ¬ n ∈ ops.map Op.target) ∧
    (n ∈ ops.map Op.target → ∃ s, (buildGraph ops).edges n = some s) := by
  have h1 : (buildGraph ops).edges n = none ↔ ¬ n ∈ (buildGraph ops).keys :=
    lookupA_eq_none_iff _ n
  rw [mem_keys_buildGraph] at h1
  refine ⟨h1, fun hm => ?_⟩
  rcases hcase : (buildGraph ops).edges n with _ | s
  · exact absurd hm (h1.mp hcase)
  · exact ⟨s, rfl⟩

/-- Witness for C3: on `link(0, 1)`, node `1` (successor only) is "not found"
while node `0` is found. -/
theorem edges_none_iff_never_added_witness :
    (((buildGraph [Op.link (0:Nat) 1]).edges 1 = none ↔
        ¬ 1 ∈ ([Op.link (0:Nat) 1].map Op.target)) ∧
      (1 ∈ ([Op.link (0:Nat) 1].map Op.target) →
        ∃ s, (buildGraph [Op.link (0:Nat) 1]).edges 1 = some s)) :=
  edges_none_iff_never_added [Op.link (0:Nat) 1] 1

/-! ### Claim C6 -/

/-- C6: after `add(A, [B, C])` then `add(A, [C, D])` on a fresh graph,
`edges(A)` is a duplicate-free sequence whose elements are exactly
`{B, C, D}`. -/
theorem edges_after_add_twice (A B C D : N) :
    ∃ s, ((Graph.empty.add A [B, C]).add A [C, D]).edges A = some s ∧
      s.Nodup ∧ ∀ x, x ∈ s ↔ x = B ∨ x = C ∨ x = D := by
  have h0 : (Graph.empty : Graph N).succs A = [] := rfl
  have h1 : (Graph.empty.add A [B, C]).succs A = extendSet [] [B, C] := by
    show ((Graph.empty.add A [B, C]).edges A).getD [] = _
    rw [edges_add_self, h0]
    rfl
  refine ⟨_, edges_add_self _ A [C, D], ?_, ?_⟩
  · rw [h1]
    exact nodup_extendSet _ [C, D] (nodup_extendSet [] [B, C] List.nodup_nil)
  · intro x
    rw [mem_extendSet, h1, mem_extendSet]
    simp
    tauto

/-! ### Claim C7 -/

/-- C7: `link(n, c)` produces exactly the same graph state as `add(n, [c])`. -/
theorem link_eq_add_singleton (g : Graph N) (n c : N) :
    g.link n c = g.add n [c] := rfl

/-! ### Claim C8 -/

/-- C8: for a graph built by any call sequence, `iter()` (`nodes()`) yields a
node exactly when it was the first argument of some `add` or `link` call;
nodes appearing only inside successor sets are not yielded. -/
theorem iter_mem_iff_added (ops : List (Op N)) (n : N) :
    n ∈ (buildGraph ops).iter ↔ n ∈ ops.map Op.target :=
  mem_keys_buildGraph ops n

/-! ### Claim C9 -/

/-- C9: the equality of `impl PartialEq for Graph` is structural on the
node-to-successor-set mapping and independent of insertion order: graphs
built by permuted call sequences compare equal.  Duplication (`clone`)
yields a graph equal to the original; in this value-semantics embedding a
mutation of the copy builds a new value and cannot touch the original. -/
theorem graph_eq_insertion_order_independent (ops1 ops2 : List (Op N))
    (h : ops1.Perm ops2) :
    Graph.req (buildGraph ops1) (buildGraph ops2) ∧
    Graph.req (Graph.clone (buildGraph ops1)) (buildGraph ops1) := by
  constructor
  · intro n
    constructor
    · have e1 := mem_keys_iff_isSome (buildGraph ops1) n
      have e2 := mem_keys_iff_isSome (buildGraph ops2) n
      rw [mem_keys_buildGraph] at e1
      rw [mem_keys_buildGraph] at e2
      have hmem : n ∈ ops1.map Op.target ↔ n ∈ ops2.map Op.target :=
        (h.map Op.target).mem_iff
      rw [Bool.eq_iff_iff, ← e1, ← e2]
      exact hmem
    · intro x
      rw [mem_succs_buildGraph, mem_succs_buildGraph]
      constructor
      · rintro ⟨op, hop, hrest⟩
        exact ⟨op, h.subset hop, hrest⟩
      · rintro ⟨op, hop, hrest⟩
        exact ⟨op, h.symm.subset hop, hrest⟩
  · intro n
    exact ⟨rfl, fun x => Iff.rfl⟩

/-- Witness for C9 at two concrete permuted call sequences. -/
theorem graph_eq_insertion_order_independent_witness :
    ([Op.link (0:Nat) 1, Op.add 2 [3]].Perm [Op.add (2:Nat) [3], Op.link 0 1]) ∧
    (Graph.req (buildGraph [Op.link (0:Nat) 1, Op.add 2 [3]])
        (buildGraph [Op.add (2:Nat) [3], Op.link 0 1]) ∧
      Graph.req (Graph.clone (buildGraph [Op.link (0:Nat) 1, Op.add 2 [3]]))
        (buildGraph [Op.link (0:Nat) 1, Op.add 2 [3]])) :=
  ⟨by decide, graph_eq_insertion_order_independent _ _ (by decide)⟩

/-! ### Claim C10 -/

/-- Counterexample to C10 as stated: on a fresh graph, `add(0, [0])` turns
`0` — an element of `children` that was not a key — into a key. -/
theorem add_child_becomes_key_counterexample :
    ¬ (0:Nat) ∈ (Graph.empty : Graph Nat).keys ∧ (0:Nat) ∈ [(0:Nat)] ∧
      (0:Nat) ∈ ((Graph.empty : Graph Nat).add 0 [0]).keys := by decide

/-- C10 (amended): `add(n, children)` and `link(n, c)` change only the entry
of key `n`: every other key keeps its successor set, and an element of
`children` (or `c`) other than `n` itself that was not a key does not become
one. -/
theorem add_link_frame (g : Graph N) (n : N) (cs : List N) (c m x : N)
    (hm : m ≠ n) :
    ((g.add n cs).edges m = g.edges m) ∧ ((g.link n c).edges m = g.edges m) ∧
    (x ∈ cs → x ≠ n → ¬ x ∈ g.keys → ¬ x ∈ (g.add n cs).keys) ∧
    (x ≠ n → ¬ x ∈ g.keys → ¬ x ∈ (g.link n c).keys) := by
  refine ⟨edges_add_ne g n cs m hm, edges_link_ne g n c m hm, ?_, ?_⟩
  · intro _ hxn hxk hmem
    rcases (mem_keys_add g n cs x).mp hmem with hin | hin
    · exact hxk hin
    · exact hxn hin
  · intro hxn hxk hmem
    rcases (mem_keys_link g n c x).mp hmem with hin | hin
    · exact hxk hin
    · exact hxn hin

/-- Witness for C10's amended theorem at a concrete graph and keys. -/
theorem add_link_frame_witness :
    (0:Nat) ≠ 1 ∧
      ((Graph.empty.add (0:Nat) [5]).add 1 [2]).edges 0 =
        (Graph.empty.add (0:Nat) [5]).edges 0 :=
  ⟨by decide, (add_link_frame (Graph.empty.add (0:Nat) [5]) 1 [2] 3 0 2 (by decide)).1⟩

/-! ### The backward walk of path_to_top -/

/-- The entry chosen by `first_pkg_depending_on`, described positionally:
`p` owns some entry `(p, s)` of the map whose set contains `pkg`, `p` is not
already in the path `res`, and every entry before it in iteration order
either does not contain `pkg` or has its key already in `res`. -/
def IsFirstCandidate (g : Graph N) (pkg : N) (res : List N) (p : N) : Prop :=
  ∃ l1 s l2, g.nodes = l1 ++ (p, s) :: l2 ∧ pkg ∈ s ∧ ¬ p ∈ res ∧
    ∀ q ∈ l1, ¬ (pkg ∈ q.2 ∧ ¬ q.1 ∈ res)

/-- No entry of the map can extend the path: every key whose set contains
`pkg` is already in `res`. -/
def NoCandidate (g : Graph N) (pkg : N) (res : List N) : Prop :=
  ∀ q ∈ g.nodes, ¬ (pkg ∈ q.2 ∧ ¬ q.1 ∈ res)

/-- The paths produced by the walk: starting from a singleton, each extension
appends the first candidate (in iteration order) depending on the current
last element and not yet in the path. -/
inductive PathChain (g : Graph N) : List N → Prop where
  | single (s : N) : PathChain g [s]
  | snoc (res : List N) (pkg p : N) (hres : PathChain g res)
      (hlast : res.getLast? = some pkg)
      (hcand : IsFirstCandidate g pkg res p) : PathChain g (res ++ [p])

/-- Keys of the map are pairwise distinct (every graph reachable through
`add`/`link` from the empty graph satisfies this: `upsert` never duplicates
a key). -/
def Graph.WF (g : Graph N) : Prop := g.keys.Nodup

instance (g : Graph N) : Decidable g.WF :=
  inferInstanceAs (Decidable g.keys.Nodup)

theorem head_filter_eq_some_iff {α : Type} (l : List α) (P : α → Bool) (x : α) :
    (l.filter P).head? = some x ↔
      ∃ l1 l2, l = l1 ++ x :: l2 ∧ P x = true ∧ ∀ y ∈ l1, P y = false := by
  induction l with
  | nil => simp
  | cons a rest ih =>
    by_cases hPa : P a = true
    · rw [List.filter_cons_of_pos hPa]
      simp only [List.head?_cons, Option.some.injEq]
      constructor
      · rintro rfl
        exact ⟨[], rest, rfl, hPa, by simp⟩
      · rintro ⟨l1, l2, heq, hPx, hall⟩
        cases l1 with
        | nil =>
          simp only [List.nil_append, List.cons.injEq] at heq
          exact heq.1
        | cons b l1 =>
          exfalso
          simp only [List.cons_append, List.cons.injEq] at heq
          have hb := hall b (by simp)
          rw [← heq.1, hPa] at hb
          exact Bool.true_eq_false.mp hb
    · have hPa2 : P a = false := by simpa using hPa
      rw [List.filter_cons_of_neg (by simp [hPa2])]
      rw [ih]
      constructor
      · rintro ⟨l1, l2, heq, hPx, hall⟩
        refine ⟨a :: l1, l2, by rw [heq, List.cons_append], hPx, ?_⟩
        intro y hy
        rcases List.mem_cons.mp hy with rfl | hy2
        · exact hPa2
        · exact hall y hy2
      · rintro ⟨l1, l2, heq, hPx, hall⟩
        cases l1 with
        | nil =>
          exfalso
          simp only [List.nil_append, List.cons.injEq] at heq
          rw [← heq.1, hPa2] at hPx
          exact Bool.false_eq_true.mp hPx
        | cons b l1 =>
          simp only [List.cons_append, List.cons.injEq] at heq
          exact ⟨l1, l2, heq.2, hPx, fun y hy => hall y (by simp [hy])⟩

theorem first_pkg_some_iff (g : Graph N) (pkg : N) (res : List N) (p : N) :
    first_pkg_depending_on g pkg res = some p ↔ IsFirstCandidate g pkg res p := by
  rw [first_pkg_depending_on, List.filter_filter]
  constructor
  · intro h
    rcases Option.map_eq_some'.mp h with ⟨⟨q, s⟩, hq, hfst⟩
    cases hfst
    rcases (head_filter_eq_some_iff _ _ _).mp hq with ⟨l1, l2, heq, hP, hall⟩
    simp only [Bool.and_eq_true, decide_eq_true_eq] at hP
    refine ⟨l1, s, l2, heq, hP.2, hP.1, ?_⟩
    intro y hy
    have hb := hall y hy
    rintro ⟨h1, h2⟩
    rw [decide_eq_true h2, decide_eq_true h1] at hb
    simp at hb
  · rintro ⟨l1, s, l2, heq, hmem, hnres, hall⟩
    have hhead : (g.nodes.filter
        (fun a => decide (¬ a.1 ∈ res) && decide (pkg ∈ a.2))).head? = some (p, s) := by
      rw [head_filter_eq_some_iff]
      refine ⟨l1, l2, heq, by simp [hmem, hnres], ?_⟩
      intro y hy
      have hq := hall y hy
      by_cases h1 : pkg ∈ y.2
      · by_cases h2 : y.1 ∈ res
        · simp [h2]
        · exact absurd ⟨h1, h2⟩ hq
      · simp [h1]
    rw [hhead]
    rfl

theorem first_pkg_none_iff (g : Graph N) (pkg : N) (res : List N) :
    first_pkg_depending_on g pkg res = none ↔ NoCandidate g pkg res := by
  rw [first_pkg_depending_on, List.filter_filter, Option.map_eq_none',
    List.head?_eq_none_iff, List.filter_eq_nil_iff]
  constructor
  · intro h q hq hcon
    have hb := h q hq
    simp only [Bool.and_eq_true, decide_eq_true_eq, not_and] at hb
    exact hb hcon.2 hcon.1
  · intro h q hq
    have hq2 := h q hq
    simp only [Bool.and_eq_true, decide_eq_true_eq, not_and]
    intro hnres hpkg
    exact hq2 ⟨hpkg, hnres⟩

theorem first_pkg_some_facts (g : Graph N) (pkg : N) (res : List N) (p : N)
    (h : first_pkg_depending_on g pkg res = some p) : p ∈ g.keys ∧ ¬ p ∈ res := by
  rcases (first_pkg_some_iff g pkg res p).mp h with ⟨l1, s, l2, heq, _, hnres, _⟩
  constructor
  · rw [Graph.keys, heq]
    simp
  · exact hnres

theorem sublist_length_lt {α : Type} {s t : List α} (hsub : s.Sublist t) (a : α)
    (hat : a ∈ t) (has : ¬ a ∈ s) : s.length < t.length := by
  rcases Nat.lt_or_ge s.length t.length with h | h
  · exact h
  · exfalso
    rw [hsub.eq_of_length_le h] at has
    exact has hat

theorem filter_not_mem_concat_lt (keys res : List N) (p : N)
    (hp : p ∈ keys) (hnp : ¬ p ∈ res) :
    (keys.filter (fun k => decide (¬ k ∈ res ++ [p]))).length <
      (keys.filter (fun k => decide (¬ k ∈ res))).length := by
  refine sublist_length_lt (List.monotone_filter_right keys ?_) p ?_ ?_
  · intro a ha
    simp only [decide_eq_true_eq, List.mem_append] at ha ⊢
    tauto
  · rw [List.mem_filter]
    exact ⟨hp, by simpa using hnp⟩
  · rw [List.mem_filter]
    simp

theorem pathLoop_spec (g : Graph N) : ∀ (fuel : Nat) (pkg : N) (res : List N),
    res ≠ [] → res.getLast? = some pkg → res.Nodup →
    (g.keys.filter (fun k => decide (¬ k ∈ res))).length < fuel →
    ∃ ext, pathLoop g fuel pkg res = res ++ ext ∧
      (pathLoop g fuel pkg res).Nodup ∧
      (PathChain g res → PathChain g (pathLoop g fuel pkg res)) ∧
      ∀ y, (pathLoop g fuel pkg res).getLast? = some y →
        NoCandidate g y (pathLoop g fuel pkg res) := by
  intro fuel
  induction fuel with
  | zero =>
    intro pkg res _ _ _ hf
    exact absurd hf (Nat.not_lt_zero _)
  | succ fuel ih =>
    intro pkg res hne hlast hnd hf
    have hstep : pathLoop g (fuel + 1) pkg res =
        match first_pkg_depending_on g pkg res with
        | none => res
        | some p => pathLoop g fuel p (res ++ [p]) := rfl
    cases hc : first_pkg_depending_on g pkg res with
    | none =>
      have heq : pathLoop g (fuel + 1) pkg res = res := by rw [hstep, hc]
      refine ⟨[], by rw [heq, List.append_nil], by rw [heq]; exact hnd,
        fun h => by rw [heq]; exact h, ?_⟩
      intro y hy
      rw [heq] at hy
      have hypkg : y = pkg := by
        rw [hlast] at hy
        exact (Option.some.injEq _ _ ▸ hy).symm
      rw [heq]
      rw [hypkg]
      exact (first_pkg_none_iff g pkg res).mp hc
    | some p =>
      have heq : pathLoop g (fuel + 1) pkg res = pathLoop g fuel p (res ++ [p]) := by
        rw [hstep, hc]
      have hfacts := first_pkg_some_facts g pkg res p hc
      have hcand := (first_pkg_some_iff g pkg res p).mp hc
      have hne2 : res ++ [p] ≠ [] := by simp
      have hlast2 : (res ++ [p]).getLast? = some p := List.getLast?_concat res
      have hnd2 : (res ++ [p]).Nodup := by
        refine List.Nodup.append hnd (List.nodup_singleton p) ?_
        intro a ha hb
        rw [List.mem_singleton] at hb
        rw [hb] at ha
        exact hfacts.2 ha
      have hf2 : (g.keys.filter (fun k => decide (¬ k ∈ res ++ [p]))).length < fuel := by
        have hlt := filter_not_mem_concat_lt g.keys res p hfacts.1 hfacts.2
        omega
      rcases ih p (res ++ [p]) hne2 hlast2 hnd2 hf2 with ⟨ext, hext, hndl, hchain, hstop⟩
      refine ⟨[p] ++ ext, ?_, ?_, ?_, ?_⟩
      · rw [heq, hext, List.append_assoc]
      · rw [heq]
        exact hndl
      · intro h
        rw [heq]
        exact hchain (PathChain.snoc res pkg p h hlast hcand)
      · intro y hy
        rw [heq] at hy ⊢
        exact hstop y hy

theorem lookupA_of_mem_nodup {α : Type} (l : List (N × α)) (p : N) (s : α)
    (hnd : (l.map Prod.fst).Nodup) (hmem : (p, s) ∈ l) : lookupA l p = some s := by
  induction l with
  | nil => simp at hmem
  | cons q rest ih =>
    obtain ⟨k, v⟩ := q
    simp only [List.map_cons, List.nodup_cons] at hnd
    rcases List.mem_cons.mp hmem with heq | hmem2
    · cases heq
      simp [lookupA]
    · have hk : ¬ k = p := by
        intro e
        rw [e] at hnd
        exact hnd.1 (List.mem_map.mpr ⟨(p, s), hmem2, rfl⟩)
      simp only [lookupA, if_neg hk]
      exact ih hnd.2 hmem2

theorem pathChain_chain' (g : Graph N) (l : List N) (hwf : g.WF)
    (h : PathChain g l) : List.Chain' (fun a b => g.HasEdge b a) l := by
  induction h with
  | single s => simp
  | snoc res pkg p hres hlast hcand ih =>
    refine List.Chain'.append ih (List.chain'_singleton p) ?_
    intro x hx y hy
    simp only [List.head?_cons, Option.mem_def, Option.some.injEq] at hy
    rw [Option.mem_def, hlast, Option.some.injEq] at hx
    rcases hcand with ⟨l1, s, l2, heq, hmem, _, _⟩
    have hlook : lookupA g.nodes p = some s := by
      refine lookupA_of_mem_nodup _ _ _ hwf ?_
      rw [heq]
      simp
    show g.HasEdge y x
    rw [← hy, ← hx]
    show pkg ∈ g.succs p
    show pkg ∈ (g.edges p).getD []
    show pkg ∈ (lookupA g.nodes p).getD []
    rw [hlook]
    exact hmem

/-! ### Claim C4 -/

/-- C4: `path_to_top(start)` begins with `start`; each later element is the
first candidate, in the mapping's iteration order, whose recorded successor
set contains the immediately preceding element and which is not already in
the path (`PathChain`, hence also a backward edge chain); the walk stops
exactly when no such predecessor exists (`NoCandidate` at the final
element). -/
theorem path_to_top_first_match (g : Graph N) (s : N) (hwf : g.WF) :
    (g.path_to_top s).head? = some s ∧
    List.Chain' (fun a b => g.HasEdge b a) (g.path_to_top s) ∧
    PathChain g (g.path_to_top s) ∧
    ∀ y, (g.path_to_top s).getLast? = some y →
      NoCandidate g y (g.path_to_top s) := by
  have hf : (g.keys.filter (fun k => decide (¬ k ∈ [s]))).length < g.nodes.length + 1 := by
    have h1 := List.length_filter_le (fun k => decide (¬ k ∈ [s])) g.keys
    have h2 : g.keys.length = g.nodes.length := by
      rw [Graph.keys, List.length_map]
    omega
  rcases pathLoop_spec g (g.nodes.length + 1) s [s] (by simp) rfl
      (List.nodup_singleton s) hf with ⟨ext, hext, hnd, hchain, hstop⟩
  have hpc : PathChain g (g.path_to_top s) := hchain (PathChain.single s)
  refine ⟨?_, pathChain_chain' g _ hwf hpc, hpc, fun y hy => hstop y hy⟩
  show (pathLoop g (g.nodes.length + 1) s [s]).head? = some s
  rw [hext]
  rfl

/-- Witness for C4 on the concrete graph `link(1, 0)` starting at `0`. -/
theorem path_to_top_first_match_witness :
    (Graph.empty.link (1:Nat) 0).WF ∧
      (((Graph.empty.link (1:Nat) 0).path_to_top 0).head? = some 0 ∧
        List.Chain' (fun a b => (Graph.empty.link (1:Nat) 0).HasEdge b a)
          ((Graph.empty.link (1:Nat) 0).path_to_top 0) ∧
        PathChain (Graph.empty.link (1:Nat) 0)
          ((Graph.empty.link (1:Nat) 0).path_to_top 0) ∧
        ∀ y, ((Graph.empty.link (1:Nat) 0).path_to_top 0).getLast? = some y →
          NoCandidate (Graph.empty.link (1:Nat) 0) y
            ((Graph.empty.link (1:Nat) 0).path_to_top 0)) :=
  ⟨by decide, path_to_top_first_match (Graph.empty.link (1:Nat) 0) 0 (by decide)⟩

/-! ### Claim C5 -/

/-- C5: `path_to_top(start)` always terminates with a result (even on cyclic
graphs): it begins with `start`, contains no duplicates, has at least the
single element `start`, and its walk ran until no further predecessor
existed. -/
theorem path_to_top_total (g : Graph N) (s : N) :
    (g.path_to_top s).head? = some s ∧ (g.path_to_top s).Nodup ∧
      1 ≤ (g.path_to_top s).length ∧
      ∀ y, (g.path_to_top s).getLast? = some y →
        NoCandidate g y (g.path_to_top s) := by
  have hf : (g.keys.filter (fun k => decide (¬ k ∈ [s]))).length < g.nodes.length + 1 := by
    have h1 := List.length_filter_le (fun k => decide (¬ k ∈ [s])) g.keys
    have h2 : g.keys.length = g.nodes.length := by
      rw [Graph.keys, List.length_map]
    omega
  rcases pathLoop_spec g (g.nodes.length + 1) s [s] (by simp) rfl
      (List.nodup_singleton s) hf with ⟨ext, hext, hnd, _, hstop⟩
  refine ⟨?_, hnd, ?_, fun y hy => hstop y hy⟩
  · show (pathLoop g (g.nodes.length + 1) s [s]).head? = some s
    rw [hext]
    rfl
  · show 1 ≤ (pathLoop g (g.nodes.length + 1) s [s]).length
    rw [hext]
    simp

/-! ### DFS invariants for sort -/

/-- State invariant of the DFS of `sort`: the output is duplicate-free, a
node is marked `Done` exactly when it has been output, and every recorded
successor of an output node either appears before it in the output or
reaches it back through recorded edges (the skipped-cycle case). -/
def GoodState (g : Graph N) (dst : List N) (marks : List (N × Mark)) : Prop :=
  dst.Nodup ∧
  (∀ n, lookupA marks n = some Mark.Done ↔ n ∈ dst) ∧
  (∀ u v, u ∈ dst → g.HasEdge u v →
    dst.indexOf v < dst.indexOf u ∨ Relation.TransGen g.HasEdge v u)

/-- Every `InProgress` node is an ancestor of the node about to be visited:
it is that node or reaches it through recorded edges. -/
def ChainInv (g : Graph N) (marks : List (N × Mark)) (node : N) : Prop :=
  ∀ n, lookupA marks n = some Mark.InProgress →
    n = node ∨ Relation.TransGen g.HasEdge n node

/-- Effect of a completed visit on the `(dst, marks)` state: the output is
only extended, existing marks never change, newly marked nodes end `Done`,
and only keys of the map acquire marks. -/
def VisitPost (g : Graph N) (dst : List N) (marks : List (N × Mark))
    (dst' : List N) (marks' : List (N × Mark)) : Prop :=
  (∃ app, dst' = dst ++ app) ∧
  (∀ n m, lookupA marks n = some m → lookupA marks' n = some m) ∧
  (∀ n, lookupA marks n = none →
    lookupA marks' n = none ∨ lookupA marks' n = some Mark.Done) ∧
  (∀ n, lookupA marks n = none → ¬ lookupA marks' n = none → n ∈ g.keys)

theorem visitPost_refl (g : Graph N) (dst : List N) (marks : List (N × Mark)) :
    VisitPost g dst marks dst marks :=
  ⟨⟨[], by simp⟩, fun _ _ h => h, fun _ h => Or.inl h, fun n h hn => absurd h hn⟩

theorem visitPost_trans {g : Graph N} {d1 d2 d3 : List N}
    {m1 m2 m3 : List (N × Mark)} (h1 : VisitPost g d1 m1 d2 m2)
    (h2 : VisitPost g d2 m2 d3 m3) : VisitPost g d1 m1 d3 m3 := by
  obtain ⟨⟨a1, ha1⟩, mono1, nd1, nk1⟩ := h1
  obtain ⟨⟨a2, ha2⟩, mono2, nd2, nk2⟩ := h2
  refine ⟨⟨a1 ++ a2, by rw [ha2, ha1, List.append_assoc]⟩,
    fun n m h => mono2 n m (mono1 n m h), ?_, ?_⟩
  · intro n h
    rcases nd1 n h with h' | h'
    · exact nd2 n h'
    · exact Or.inr (mono2 n _ h')
  · intro n h hn
    cases h2case : lookupA m2 n with
    | none => exact nk2 n h2case hn
    | some m =>
      refine nk1 n h ?_
      rw [h2case]
      simp

theorem visitPost_inprogress_iff {g : Graph N} {d1 d2 : List N}
    {m1 m2 : List (N × Mark)} (h : VisitPost g d1 m1 d2 m2) (n : N) :
    lookupA m2 n = some Mark.InProgress ↔ lookupA m1 n = some Mark.InProgress := by
  constructor
  · intro h2
    cases hm : lookupA m1 n with
    | none =>
      rcases h.2.2.1 n hm with h0 | h0 <;> rw [h0] at h2 <;> cases h2
    | some m =>
      have hkeep := h.2.1 n m hm
      rw [hkeep] at h2
      injection h2 with hmm
      rw [hmm]
  · exact fun h1 => h.2.1 n _ h1

theorem lookupA_mem {α : Type} (l : List (N × α)) (n : N) (s : α)
    (h : lookupA l n = some s) : (n, s) ∈ l := by
  induction l with
  | nil => cases h
  | cons q rest ih =>
    obtain ⟨k, v⟩ := q
    by_cases hk : k = n
    · subst hk
      rw [lookupA, if_pos rfl] at h
      cases h
      exact List.mem_cons_self _ _
    · rw [lookupA, if_neg hk] at h
      exact List.mem_cons_of_mem _ (ih h)

/-- Unfolding of `visit` at an already marked node. -/
theorem visit_succ_marked (g : Graph N) (fuel : Nat) (node : N) (dst : List N)
    (marks : List (N × Mark)) (hmk : (lookupA marks node).isSome = true) :
    visit g (fuel + 1) node (dst, marks) = Except.ok (dst, marks) := by
  simp [visit, hmk]

/-- Unfolding of `visit` at an unmarked node. -/
theorem visit_succ_unmarked (g : Graph N) (fuel : Nat) (node : N) (dst : List N)
    (marks : List (N × Mark)) (hmk : ¬ (lookupA marks node).isSome = true) :
    visit g (fuel + 1) node (dst, marks) =
      match lookupA g.nodes node with
      | none => Except.error "panic"
      | some children =>
        match runList (visit g fuel) children
            (dst, upsert marks node (fun _ => Mark.InProgress)) with
        | Except.error e => Except.error e
        | Except.ok (dst2, marks2) =>
          Except.ok (dst2 ++ [node], upsert marks2 node (fun _ => Mark.Done)) := by
  simp [visit, hmk]

theorem visit_zero (g : Graph N) (node : N) (st : List N × List (N × Mark)) :
    visit g 0 node st = Except.error "fuel" := rfl

theorem runList_nil {σ : Type} (f : N → σ → Except String σ) (st : σ) :
    runList f [] st = Except.ok st := rfl

theorem runList_cons_ok {σ : Type} (f : N → σ → Except String σ) (c : N)
    (cs : List N) (st st2 : σ) (hv : f c st = Except.ok st2) :
    runList f (c :: cs) st = runList f cs st2 := by
  rw [runList, hv]

theorem runList_cons_err {σ : Type} (f : N → σ → Except String σ) (c : N)
    (cs : List N) (st : σ) (e : String) (hv : f c st = Except.error e) :
    runList f (c :: cs) st = Except.error e := by
  rw [runList, hv]

theorem visit_succ_panic (g : Graph N) (fuel : Nat) (node : N) (dst : List N)
    (marks : List (N × Mark)) (hmk : ¬ (lookupA marks node).isSome = true)
    (hch : lookupA g.nodes node = none) :
    visit g (fuel + 1) node (dst, marks) = Except.error "panic" := by
  rw [visit_succ_unmarked g fuel node dst marks hmk, hch]

theorem visit_succ_children_err (g : Graph N) (fuel : Nat) (node : N)
    (dst : List N) (marks : List (N × Mark)) (children : List N) (e : String)
    (hmk : ¬ (lookupA marks node).isSome = true)
    (hch : lookupA g.nodes node = some children)
    (hrl : runList (visit g fuel) children
        (dst, upsert marks node (fun _ => Mark.InProgress)) = Except.error e) :
    visit g (fuel + 1) node (dst, marks) = Except.error e := by
  rw [visit_succ_unmarked g fuel node dst marks hmk, hch]
  show (match runList (visit g fuel) children
      (dst, upsert marks node (fun _ => Mark.InProgress)) with
    | Except.error e => Except.error e
    | Except.ok (dst2, marks2) =>
      Except.ok (dst2 ++ [node], upsert marks2 node (fun _ => Mark.Done))) =
    Except.error e
  rw [hrl]

theorem visit_succ_children_ok (g : Graph N) (fuel : Nat) (node : N)
    (dst : List N) (marks : List (N × Mark)) (children dst2 : List N)
    (marks2 : List (N × Mark))
    (hmk : ¬ (lookupA marks node).isSome = true)
    (hch : lookupA g.nodes node = some children)
    (hrl : runList (visit g fuel) children
        (dst, upsert marks node (fun _ => Mark.InProgress)) =
        Except.ok (dst2, marks2)) :
    visit g (fuel + 1) node (dst, marks) =
      Except.ok (dst2 ++ [node], upsert marks2 node (fun _ => Mark.Done)) := by
  rw [visit_succ_unmarked g fuel node dst marks hmk, hch]
  show (match runList (visit g fuel) children
      (dst, upsert marks node (fun _ => Mark.InProgress)) with
    | Except.error e => Except.error e
    | Except.ok (dst2, marks2) =>
      Except.ok (dst2 ++ [node], upsert marks2 node (fun _ => Mark.Done))) =
    Except.ok (dst2 ++ [node], upsert marks2 node (fun _ => Mark.Done))
  rw [hrl]

/-- Number of keys not yet marked (the quantity that bounds the remaining
recursion depth of `visit`). -/
def unmarkedCount (g : Graph N) (marks : List (N × Mark)) : Nat :=
  (g.keys.filter (fun k => (lookupA marks k).isNone)).length

theorem unmarkedCount_upsert_lt (g : Graph N) (marks : List (N × Mark))
    (node : N) (f : Option Mark → Mark) (hk : node ∈ g.keys)
    (hnone : lookupA marks node = none) :
    unmarkedCount g (upsert marks node (fun o => f o)) < unmarkedCount g marks := by
  refine sublist_length_lt (List.monotone_filter_right g.keys ?_) node ?_ ?_
  · intro a ha
    by_cases hann : a = node
    · subst hann
      rw [lookupA_upsert_self] at ha
      simp at ha
    · rwa [lookupA_upsert_ne marks node _ a hann] at ha
  · rw [List.mem_filter]
    refine ⟨hk, ?_⟩
    rw [hnone]
    rfl
  · rw [List.mem_filter]
    rintro ⟨-, hbad⟩
    rw [lookupA_upsert_self] at hbad
    simp at hbad

theorem unmarkedCount_mono (g : Graph N) (marks marks2 : List (N × Mark))
    (hmono : ∀ n m, lookupA marks n = some m → lookupA marks2 n = some m) :
    unmarkedCount g marks2 ≤ unmarkedCount g marks := by
  refine List.Sublist.length_le (List.monotone_filter_right g.keys ?_)
  intro a ha
  cases hm : lookupA marks a with
  | none => simp [hm]
  | some m =>
    rw [hmono a m hm] at ha
    simp at ha

/-- Every completed `visit` (and child loop) preserves the DFS invariants:
the state-extension facts of `VisitPost`, the fact that the visited node ends
up marked, and `GoodState` under the ancestor-chain hypothesis. -/
theorem visit_spec (g : Graph N) : ∀ fuel : Nat,
    (∀ node dst marks dst' marks',
      visit g fuel node (dst, marks) = Except.ok (dst', marks') →
      VisitPost g dst marks dst' marks' ∧
      ¬ lookupA marks' node = none ∧
      (GoodState g dst marks → ChainInv g marks node → GoodState g dst' marks')) ∧
    (∀ cs dst marks dst' marks',
      runList (visit g fuel) cs (dst, marks) = Except.ok (dst', marks') →
      VisitPost g dst marks dst' marks' ∧
      (∀ c ∈ cs, ¬ lookupA marks' c = none) ∧
      (GoodState g dst marks → (∀ c ∈ cs, ChainInv g marks c) →
        GoodState g dst' marks')) := by
  intro fuel
  induction fuel with
  | zero =>
    constructor
    · intro node dst marks dst' marks' h
      rw [visit_zero] at h
      cases h
    · intro cs dst marks dst' marks' h
      cases cs with
      | nil =>
        rw [runList_nil] at h
        injection h with hpair
        injection hpair with h1 h2
        subst h1
        subst h2
        exact ⟨visitPost_refl g dst marks, by simp, fun hg _ => hg⟩
      | cons c rest =>
        rw [runList_cons_err _ c rest _ "fuel" (visit_zero g c (dst, marks))] at h
        cases h
  | succ fuel ih =>
    obtain ⟨ihF, ihL⟩ := ih
    have hF : ∀ node dst marks dst' marks',
        visit g (fuel + 1) node (dst, marks) = Except.ok (dst', marks') →
        VisitPost g dst marks dst' marks' ∧
        ¬ lookupA marks' node = none ∧
        (GoodState g dst marks → ChainInv g marks node →
          GoodState g dst' marks') := by
      intro node dst marks dst' marks' h
      by_cases hmk : (lookupA marks node).isSome = true
      · rw [visit_succ_marked g fuel node dst marks hmk] at h
        injection h with hpair
        injection hpair with h1 h2
        subst h1
        subst h2
        refine ⟨visitPost_refl g dst marks, ?_, fun hg _ => hg⟩
        intro hcon
        rw [hcon] at hmk
        simp at hmk
      · have hnone : lookupA marks node = none := by
          cases hx : lookupA marks node with
          | none => rfl
          | some m =>
            rw [hx] at hmk
            simp at hmk
        cases hch : lookupA g.nodes node with
        | none =>
          rw [visit_succ_panic g fuel node dst marks hmk hch] at h
          cases h
        | some children =>
          cases hrl : runList (visit g fuel) children
              (dst, upsert marks node (fun _ => Mark.InProgress)) with
          | error e =>
            rw [visit_succ_children_err g fuel node dst marks children e hmk hch hrl] at h
            cases h
          | ok st2 =>
            obtain ⟨dst2, marks2⟩ := st2
            rw [visit_succ_children_ok g fuel node dst marks children dst2 marks2
                hmk hch hrl] at h
            injection h with hpair
            injection hpair with h1 h2
            subst h1
            subst h2
            obtain ⟨postL, allmk, gsL⟩ := ihL children dst _ dst2 marks2 hrl
            have hkeynode : node ∈ g.keys := by
              rw [mem_keys_iff_isSome]
              show (lookupA g.nodes node).isSome = true
              rw [hch]
              rfl
            have hsuccs : g.succs node = children := by
              show (lookupA g.nodes node).getD [] = children
              rw [hch]
              rfl
            have hmono : ∀ n m, lookupA marks n = some m →
                lookupA (upsert marks2 node (fun _ => Mark.Done)) n = some m := by
              intro n m hm
              have hne : n ≠ node := by
                rintro rfl
                rw [hnone] at hm
                cases hm
              rw [lookupA_upsert_ne marks2 node _ n hne]
              refine postL.2.1 n m ?_
              rw [lookupA_upsert_ne marks node _ n hne]
              exact hm
            have hnewdone : ∀ n, lookupA marks n = none →
                lookupA (upsert marks2 node (fun _ => Mark.Done)) n = none ∨
                lookupA (upsert marks2 node (fun _ => Mark.Done)) n =
                  some Mark.Done := by
              intro n hn
              by_cases hne : n = node
              · subst hne
                right
                rw [lookupA_upsert_self]
              · rw [lookupA_upsert_ne marks2 node _ n hne]
                refine postL.2.2.1 n ?_
                rw [lookupA_upsert_ne marks node _ n hne]
                exact hn
            have hnewkeys : ∀ n, lookupA marks n = none →
                ¬ lookupA (upsert marks2 node (fun _ => Mark.Done)) n = none →
                n ∈ g.keys := by
              intro n hn hnn
              by_cases hne : n = node
              · subst hne
                exact hkeynode
              · rw [lookupA_upsert_ne marks2 node _ n hne] at hnn
                refine postL.2.2.2 n ?_ hnn
                rw [lookupA_upsert_ne marks node _ n hne]
                exact hn
            have hpre : ∃ app, dst2 ++ [node] = dst ++ app := by
              obtain ⟨app, happ⟩ := postL.1
              exact ⟨app ++ [node], by rw [happ, List.append_assoc]⟩
            refine ⟨⟨hpre, hmono, hnewdone, hnewkeys⟩, ?_, ?_⟩
            · intro hcon
              rw [lookupA_upsert_self] at hcon
              cases hcon
            · intro hgs hchain
              have hA : GoodState g dst
                  (upsert marks node (fun _ => Mark.InProgress)) := by
                refine ⟨hgs.1, ?_, hgs.2.2⟩
                intro n
                by_cases hne : n = node
                · subst hne
                  rw [lookupA_upsert_self]
                  constructor
                  · intro hx
                    injection hx with hx2
                    cases hx2
                  · intro hmem
                    exfalso
                    have hd := (hgs.2.1 n).mpr hmem
                    rw [hnone] at hd
                    cases hd
                · rw [lookupA_upsert_ne marks node _ n hne]
                  exact hgs.2.1 n
              have hB : ∀ c ∈ children,
                  ChainInv g (upsert marks node (fun _ => Mark.InProgress)) c := by
                intro c hc n hn
                have hedge : g.HasEdge node c := by
                  show c ∈ g.succs node
                  rw [hsuccs]
                  exact hc
                by_cases hne : n = node
                · subst hne
                  exact Or.inr (Relation.TransGen.single hedge)
                · rw [lookupA_upsert_ne marks node _ n hne] at hn
                  rcases hchain n hn with h' | htg
                  · exact absurd h' hne
                  · exact Or.inr (htg.tail hedge)
              have hC : GoodState g dst2 marks2 := gsL hA hB
              have hnodemem : ¬ node ∈ dst2 := by
                intro hmem
                have hdone := (hC.2.1 node).mpr hmem
                have hip : lookupA marks2 node = some Mark.InProgress := by
                  refine postL.2.1 node _ ?_
                  rw [lookupA_upsert_self]
                rw [hdone] at hip
                injection hip with hbad
                cases hbad
              refine ⟨?_, ?_, ?_⟩
              · refine List.Nodup.append hC.1 (List.nodup_singleton node) ?_
                intro a ha hb
                rw [List.mem_singleton] at hb
                rw [hb] at ha
                exact hnodemem ha
              · intro n
                by_cases hne : n = node
                · subst hne
                  rw [lookupA_upsert_self]
                  constructor
                  · intro _
                    exact List.mem_append_right _ (List.mem_singleton_self n)
                  · intro _
                    rfl
                · rw [lookupA_upsert_ne marks2 node _ n hne]
                  rw [hC.2.1 n]
                  constructor
                  · exact fun hx => List.mem_append_left _ hx
                  · intro hx
                    rcases List.mem_append.mp hx with h2 | h2
                    · exact h2
                    · rw [List.mem_singleton] at h2
                      exact absurd h2 hne
              · intro u v hu hedge
                rcases List.mem_append.mp hu with hu2 | hu2
                · rcases hC.2.2 u v hu2 hedge with hlt | htg
                  · left
                    have huidx : dst2.indexOf u < dst2.length :=
                      List.indexOf_lt_length.mpr hu2
                    have hvmem : v ∈ dst2 :=
                      List.indexOf_lt_length.mp (lt_trans hlt huidx)
                    rw [List.indexOf_append_of_mem hvmem,
                      List.indexOf_append_of_mem hu2]
                    exact hlt
                  · exact Or.inr htg
                · rw [List.mem_singleton] at hu2
                  subst hu2
                  have hcmem : v ∈ children := by
                    rw [← hsuccs]
                    exact hedge
                  have hvmk := allmk v hcmem
                  cases hvv : lookupA marks2 v with
                  | none => exact absurd hvv hvmk
                  | some mv =>
                    cases mv with
                    | Done =>
                      have hvdst : v ∈ dst2 := (hC.2.1 v).mp hvv
                      left
                      rw [List.indexOf_append_of_mem hvdst,
                        List.indexOf_append_of_not_mem hnodemem]
                      have h1 : dst2.indexOf v < dst2.length :=
                        List.indexOf_lt_length.mpr hvdst
                      exact lt_of_lt_of_le h1 (Nat.le_add_right _ _)
                    | InProgress =>
                      right
                      have hip1 : lookupA
                          (upsert marks u (fun _ => Mark.InProgress)) v =
                          some Mark.InProgress :=
                        (visitPost_inprogress_iff postL v).mp hvv
                      by_cases hvn : v = u
                      · subst hvn
                        exact Relation.TransGen.single hedge
                      · rw [lookupA_upsert_ne marks u _ v hvn] at hip1
                        rcases hchain v hip1 with h' | htg
                        · exact absurd h' hvn
                        · exact htg
    have hL : ∀ cs dst marks dst' marks',
        runList (visit g (fuel + 1)) cs (dst, marks) = Except.ok (dst', marks') →
        VisitPost g dst marks dst' marks' ∧
        (∀ c ∈ cs, ¬ lookupA marks' c = none) ∧
        (GoodState g dst marks → (∀ c ∈ cs, ChainInv g marks c) →
          GoodState g dst' marks') := by
      intro cs
      induction cs with
      | nil =>
        intro dst marks dst' marks' h
        rw [runList_nil] at h
        injection h with hpair
        injection hpair with h1 h2
        subst h1
        subst h2
        exact ⟨visitPost_refl g dst marks, by simp, fun hg _ => hg⟩
      | cons c rest ihr =>
        intro dst marks dst' marks' h
        cases hv : visit g (fuel + 1) c (dst, marks) with
        | error e =>
          rw [runList_cons_err _ c rest _ e hv] at h
          cases h
        | ok st2 =>
          obtain ⟨dst2, marks2⟩ := st2
          rw [runList_cons_ok _ c rest _ _ hv] at h
          obtain ⟨postF, markedF, gsF⟩ := hF c dst marks dst2 marks2 hv
          obtain ⟨postR, markedR, gsR⟩ := ihr dst2 marks2 dst' marks' h
          refine ⟨visitPost_trans postF postR, ?_, ?_⟩
          · intro x hx
            rcases List.mem_cons.mp hx with rfl | hx2
            · intro hcon
              cases hm2 : lookupA marks2 x with
              | none => exact markedF hm2
              | some m2 =>
                rw [postR.2.1 x m2 hm2] at hcon
                cases hcon
            · exact markedR x hx2
          · intro hgs hchains
            refine gsR (gsF hgs (hchains c (List.mem_cons_self c rest))) ?_
            intro x hx n hn
            have hn1 : lookupA marks n = some Mark.InProgress :=
              (visitPost_inprogress_iff postF n).mp hn
            exact hchains x (List.mem_cons_of_mem c hx) n hn1
    exact ⟨hF, hL⟩

/-- On a closed graph (every successor is a key) `visit` cannot fail, as long
as the fuel exceeds the number of unmarked keys. -/
theorem visit_total (g : Graph N) (hc : g.Closed) : ∀ fuel : Nat,
    (∀ node dst marks, node ∈ g.keys → unmarkedCount g marks < fuel →
      ∃ st', visit g fuel node (dst, marks) = Except.ok st') ∧
    (∀ cs dst marks, (∀ c ∈ cs, c ∈ g.keys) → unmarkedCount g marks < fuel →
      ∃ st', runList (visit g fuel) cs (dst, marks) = Except.ok st') := by
  intro fuel
  induction fuel with
  | zero =>
    constructor
    · intro node dst marks _ hcount
      exact absurd hcount (Nat.not_lt_zero _)
    · intro cs dst marks _ hcount
      exact absurd hcount (Nat.not_lt_zero _)
  | succ fuel ih =>
    obtain ⟨ihF, ihL⟩ := ih
    have hF : ∀ node dst marks, node ∈ g.keys →
        unmarkedCount g marks < fuel + 1 →
        ∃ st', visit g (fuel + 1) node (dst, marks) = Except.ok st' := by
      intro node dst marks hk hcount
      by_cases hmk : (lookupA marks node).isSome = true
      · exact ⟨(dst, marks), visit_succ_marked g fuel node dst marks hmk⟩
      · have hnone : lookupA marks node = none := by
          cases hx : lookupA marks node with
          | none => rfl
          | some m =>
            rw [hx] at hmk
            simp at hmk
        have hksome : (lookupA g.nodes node).isSome = true :=
          (mem_keys_iff_isSome g node).mp hk
        cases hch : lookupA g.nodes node with
        | none =>
          rw [hch] at hksome
          cases hksome
        | some children =>
          have hchildkeys : ∀ c ∈ children, c ∈ g.keys := by
            intro c hcc
            exact hc (node, children) (lookupA_mem g.nodes node children hch) c hcc
          have hdec : unmarkedCount g
              (upsert marks node (fun _ => Mark.InProgress)) <
              unmarkedCount g marks :=
            unmarkedCount_upsert_lt g marks node (fun _ => Mark.InProgress) hk hnone
          obtain ⟨st2, hst2⟩ := ihL children dst
            (upsert marks node (fun _ => Mark.InProgress)) hchildkeys (by omega)
          obtain ⟨dst2, marks2⟩ := st2
          exact ⟨_, visit_succ_children_ok g fuel node dst marks children dst2
            marks2 hmk hch hst2⟩
    have hL : ∀ cs dst marks, (∀ c ∈ cs, c ∈ g.keys) →
        unmarkedCount g marks < fuel + 1 →
        ∃ st', runList (visit g (fuel + 1)) cs (dst, marks) = Except.ok st' := by
      intro cs
      induction cs with
      | nil =>
        intro dst marks _ _
        exact ⟨(dst, marks), runList_nil _ _⟩
      | cons c rest ihr =>
        intro dst marks hkeys hcount
        obtain ⟨st2, hst2⟩ := hF c dst marks (hkeys c (List.mem_cons_self c rest))
          hcount
        obtain ⟨dst2, marks2⟩ := st2
        obtain ⟨postF, -, -⟩ := (visit_spec g (fuel + 1)).1 c dst marks dst2
          marks2 hst2
        have hmono : unmarkedCount g marks2 ≤ unmarkedCount g marks :=
          unmarkedCount_mono g marks marks2 postF.2.1
        obtain ⟨st3, hst3⟩ := ihr dst2 marks2
          (fun x hx => hkeys x (List.mem_cons_of_mem c hx)) (by omega)
        refine ⟨st3, ?_⟩
        rw [runList_cons_ok _ c rest _ _ hst2]
        exact hst3
    exact ⟨hF, hL⟩

/-- Extract the final DFS invariants from a successful run of `sort`. -/
theorem sort_goodstate (g : Graph N) (l : List N) (h : g.sort = Except.ok l) :
    ∃ marks', GoodState g l marks' ∧
      (∀ c ∈ g.keys, ¬ lookupA marks' c = none) ∧
      (∀ n, ¬ lookupA marks' n = none → n ∈ g.keys) ∧
      (∀ n, ¬ lookupA marks' n = some Mark.InProgress) := by
  rw [Graph.sort, visitList] at h
  cases hrun : runList (visit g (g.nodes.length + 1)) g.keys ([], []) with
  | error e =>
    rw [hrun] at h
    cases h
  | ok st =>
    obtain ⟨dst, marks'⟩ := st
    rw [hrun] at h
    injection h with hd
    subst hd
    obtain ⟨post, allmk, gs⟩ := (visit_spec g (g.nodes.length + 1)).2 g.keys
      [] [] dst marks' hrun
    have hgs0 : GoodState g [] [] := by
      refine ⟨List.nodup_nil, ?_, ?_⟩
      · intro n
        constructor
        · intro hx
          cases hx
        · intro hx
          cases hx
      · intro u v hu
        cases hu
    have hchain0 : ∀ c ∈ g.keys, ChainInv g [] c := by
      intro c _ n hn
      cases hn
    refine ⟨marks', gs hgs0 hchain0, allmk, ?_, ?_⟩
    · intro n hn
      exact post.2.2.2 n rfl hn
    · intro n hn
      have hbad := (visitPost_inprogress_iff post n).mp hn
      cases hbad

instance (g : Graph N) : Decidable g.Closed :=
  inferInstanceAs (Decidable (∀ p ∈ g.nodes, ∀ v ∈ p.2, v ∈ g.keys))

instance (g : Graph N) (u v : N) : Decidable (g.HasEdge u v) :=
  inferInstanceAs (Decidable (v ∈ g.succs u))

/-! ### Claim C1 -/

/-- Counterexample to C1 as stated: on the graph built by `link(0, 1)` the
node `1` appears only as a successor, and `sort()` panics when `visit`
indexes the map at `1` (`&self.nodes[node]` on a missing key). -/
theorem sort_panics_on_dangling_successor :
    (Graph.empty.link (0:Nat) 1).sort = Except.error "panic" := rfl

/-- C1 (amended): on every graph all of whose recorded successors are
themselves keys — which cycles and self-loops are allowed to be — `sort()`
succeeds and returns a sequence listing the graph's distinct keys exactly
once: no duplicates, no omissions. -/
theorem sort_ok_of_closed (g : Graph N) (hc : g.Closed) :
    ∃ l, g.sort = Except.ok l ∧ l.Nodup ∧ (∀ n, n ∈ l ↔ n ∈ g.keys) ∧
      l.length = g.keys.dedup.length := by
  have hcount : unmarkedCount g [] < g.nodes.length + 1 := by
    have h1 : unmarkedCount g [] ≤ g.keys.length := List.length_filter_le _ _
    have h2 : g.keys.length = g.nodes.length := by
      rw [Graph.keys, List.length_map]
    omega
  obtain ⟨st', hst⟩ := (visit_total g hc (g.nodes.length + 1)).2 g.keys [] []
    (fun c h => h) hcount
  obtain ⟨dst, marksf⟩ := st'
  have hsort : g.sort = Except.ok dst := by
    rw [Graph.sort, visitList, hst]
    rfl
  obtain ⟨marks2, hgs, hallmk, hkeys, hnoip⟩ := sort_goodstate g dst hsort
  have hmem : ∀ n, n ∈ dst ↔ n ∈ g.keys := by
    intro n
    constructor
    · intro hn
      refine hkeys n ?_
      rw [(hgs.2.1 n).mpr hn]
      simp
    · intro hn
      have hmk := hallmk n hn
      cases hm : lookupA marks2 n with
      | none => exact absurd hm hmk
      | some m =>
        cases m with
        | InProgress => exact absurd hm (hnoip n)
        | Done => exact (hgs.2.1 n).mp hm
  have hperm : dst.Perm g.keys.dedup := by
    refine (List.perm_ext_iff_of_nodup hgs.1 (List.nodup_dedup _)).mpr ?_
    intro a
    rw [List.mem_dedup]
    exact hmem a
  exact ⟨dst, hsort, hgs.1, hmem, hperm.length_eq⟩

/-- Witness for C1's amended theorem on the closed graph
`link(0, 1); add(1, [])`. -/
theorem sort_ok_of_closed_witness :
    ((Graph.empty.link (0:Nat) 1).add 1 []).Closed ∧
      ∃ l, ((Graph.empty.link (0:Nat) 1).add 1 []).sort = Except.ok l ∧
        l.Nodup ∧
        (∀ n, n ∈ l ↔ n ∈ ((Graph.empty.link (0:Nat) 1).add 1 []).keys) ∧
        l.length = ((Graph.empty.link (0:Nat) 1).add 1 []).keys.dedup.length :=
  ⟨by decide, sort_ok_of_closed _ (by decide)⟩

/-! ### Claim C2 -/

/-- C2: whenever `sort()` returns a sequence on an acyclic graph, every
recorded edge `(u, v)` has `v` placed strictly before `u` in it. -/
theorem sort_topological (g : Graph N) (l : List N) (u v : N)
    (hs : g.sort = Except.ok l) (ha : g.Acyclic) (he : g.HasEdge u v) :
    v ∈ l ∧ u ∈ l ∧ l.indexOf v < l.indexOf u := by
  obtain ⟨marks', hgs, hallmk, hkeys, hnoip⟩ := sort_goodstate g l hs
  have hukey : u ∈ g.keys := by
    rw [mem_keys_iff_isSome]
    show (lookupA g.nodes u).isSome = true
    cases hl : lookupA g.nodes u with
    | none =>
      exfalso
      have hv : v ∈ (lookupA g.nodes u).getD [] := he
      rw [hl] at hv
      cases hv
    | some s => rfl
  have humem : u ∈ l := by
    have hmk := hallmk u hukey
    cases hm : lookupA marks' u with
    | none => exact absurd hm hmk
    | some m =>
      cases m with
      | InProgress => exact absurd hm (hnoip u)
      | Done => exact (hgs.2.1 u).mp hm
  rcases hgs.2.2 u v humem he with hlt | htg
  · have huidx : l.indexOf u < l.length := List.indexOf_lt_length.mpr humem
    exact ⟨List.indexOf_lt_length.mp (lt_trans hlt huidx), humem, hlt⟩
  · exact absurd (Relation.TransGen.head he htg) (ha u)

/-- Witness for C2 on the closed acyclic graph `link(0, 1); add(1, [])`,
whose sort order is `[1, 0]`. -/
theorem sort_topological_witness :
    (((Graph.empty.link (0:Nat) 1).add 1 []).sort = Except.ok [1, 0] ∧
      ((Graph.empty.link (0:Nat) 1).add 1 []).Acyclic ∧
      ((Graph.empty.link (0:Nat) 1).add 1 []).HasEdge 0 1) ∧
      ((1:Nat) ∈ [1, 0] ∧ (0:Nat) ∈ [1, 0] ∧
        [1, 0].indexOf 1 < [1, 0].indexOf 0) := by
  have hedge : ∀ a b : Nat,
      ((Graph.empty.link (0:Nat) 1).add 1 []).HasEdge a b → a = 0 ∧ b = 1 := by
    intro a b h
    by_cases h0 : a = 0
    · subst h0
      have hs : ((Graph.empty.link (0:Nat) 1).add 1 []).succs 0 = [1] := rfl
      have hb : b ∈ [1] := by
        rw [← hs]
        exact h
      simp at hb
      exact ⟨rfl, hb⟩
    · by_cases h1 : a = 1
      · subst h1
        have hs : ((Graph.empty.link (0:Nat) 1).add 1 []).succs 1 = [] := rfl
        have hb : b ∈ ([] : List Nat) := by
          rw [← hs]
          exact h
        cases hb
      · exfalso
        have hlook : lookupA ((Graph.empty.link (0:Nat) 1).add 1 []).nodes a =
            none := by
          have hn : ((Graph.empty.link (0:Nat) 1).add 1 []).nodes =
              [(0, [1]), (1, [])] := rfl
          have h0' : ¬ (0:Nat) = a := fun e => h0 e.symm
          have h1' : ¬ (1:Nat) = a := fun e => h1 e.symm
          rw [hn]
          simp [lookupA, h0', h1']
        have hb : b ∈ (lookupA ((Graph.empty.link (0:Nat) 1).add 1 []).nodes
            a).getD [] := h
        rw [hlook] at hb
        cases hb
  have hacyc : ((Graph.empty.link (0:Nat) 1).add 1 []).Acyclic := by
    intro n htg
    have hab : ∀ a b : Nat,
        Relation.TransGen (((Graph.empty.link (0:Nat) 1).add 1 []).HasEdge) a b →
        a = 0 ∧ b = 1 := by
      intro a b htg2
      induction htg2 with
      | single h => exact hedge _ _ h
      | tail htg2 h ih => exact ⟨ih.1, (hedge _ _ h).2⟩
    have hcon := hab n n htg
    omega
  exact ⟨⟨rfl, hacyc, by decide⟩,
    sort_topological ((Graph.empty.link (0:Nat) 1).add 1 []) [1, 0] 0 1 rfl
      hacyc (by decide)⟩

/-- Witness for C5 on the two-cycle `link(10, 20); link(20, 10)` from the
spec, starting inside the cycle. -/
theorem path_to_top_total_witness :
    (((Graph.empty.link (10:Nat) 20).link 20 10).path_to_top 10).head? = some 10 ∧
      (((Graph.empty.link (10:Nat) 20).link 20 10).path_to_top 10).Nodup ∧
      1 ≤ (((Graph.empty.link (10:Nat) 20).link 20 10).path_to_top 10).length ∧
      ∀ y, (((Graph.empty.link (10:Nat) 20).link 20 10).path_to_top 10).getLast? = some y →
        NoCandidate ((Graph.empty.link (10:Nat) 20).link 20 10) y
          (((Graph.empty.link (10:Nat) 20).link 20 10).path_to_top 10) :=
  path_to_top_total ((Graph.empty.link (10:Nat) 20).link 20 10) 10

end CargoGraph
